import Mathlib

/-!
Verification of the ORBIT resilient-ingestion and correctness pipeline
(`src/orbit`), as a shallow embedding in Lean.

Conventions used throughout:
* Machine timestamps are modelled as `Int` minutes.  A timezone-aware
  pandas timestamp denotes an absolute instant, so it is embedded as
  minutes since the Unix epoch (UTC); comparisons between tz-aware
  timestamps compare instants, which the embedding preserves.
* Calendar dates are triples `(y, m, d)`; `daysFromCivil`/`civilFromDays`
  are the standard proleptic-Gregorian conversions (all divisions below
  are floor divisions, exactly as in Python).
* pandas dataframes are embedded as lists of rows; a boolean-mask filter
  becomes `List.filter`.
-/

namespace Orbit

/-- Days since 1970-01-01 of the Gregorian date `(y, m, d)`
(Howard Hinnant's `days_from_civil`, written with floor division,
which is what `/` on `Int` means here and what `//` means in Python). -/
def daysFromCivil (y m d : Int) : Int :=
  let y' := y - (if m ≤ 2 then 1 else 0)
  let era := y' / 400
  let yoe := y' - era * 400
  let doy := (153 * (m + (if 2 < m then -3 else 9)) + 2) / 5 + d - 1
  let doe := yoe * 365 + yoe / 4 - yoe / 100 + doy
  era * 146097 + doe - 719468

/-- Gregorian date `(y, m, d)` of a day count since 1970-01-01
(Howard Hinnant's `civil_from_days`, floor-division form). -/
def civilFromDays (z : Int) : Int × Int × Int :=
  let z' := z + 719468
  let era := z' / 146097
  let doe := z' - era * 146097
  let yoe := (doe - doe / 1460 + doe / 36524 - doe / 146096) / 365
  let y := yoe + era * 400
  let doy := doe - (365 * yoe + yoe / 4 - yoe / 100)
  let mp := (5 * doy + 2) / 153
  let d := doy - (153 * mp + 2) / 5 + 1
  let m := mp + (if mp < 10 then 3 else -9)
  (y + (if m ≤ 2 then 1 else 0), m, d)

/-- Weekday of a day count, with Sunday = 0 (1970-01-01 was a Thursday = 4). -/
def weekday (z : Int) : Int :=
  (z + 4) % 7

/-- Day of month of the first Sunday of month `m` in year `y`. -/
def firstSundayOfMonth (y m : Int) : Int :=
  1 + (7 - weekday (daysFromCivil y m 1)) % 7

/-- Whether US daylight-saving time is in effect at 00:00 local time of the
date `(y, m, d)` in `America/New_York` (post-2007 rule: DST runs from
02:00 on the second Sunday of March to 02:00 on the first Sunday of
November, so at local midnight DST holds strictly after the second Sunday
of March and up to and including the first Sunday of November).  This is
the offset `pytz.timezone('America/New_York').localize` attaches to a
naive midnight timestamp; midnight is never ambiguous in this zone. -/
def isDstAtMidnight (y m d : Int) : Bool :=
  let marchSecondSunday := firstSundayOfMonth y 3 + 7
  let novFirstSunday := firstSundayOfMonth y 11
  (3 < m ∨ (m = 3 ∧ marchSecondSunday < d)) ∧
    (m < 11 ∨ (m = 11 ∧ d ≤ novFirstSunday))

/-- UTC offset, in minutes, that `ET.localize` attaches to a naive
midnight timestamp of the date `(y, m, d)`: -240 (EDT) under DST,
-300 (EST) otherwise. -/
def offsetAtMidnight (y m d : Int) : Int :=
  if isDstAtMidnight y m d then -240 else -300

/-- Daily cutoff wall-clock time, `CUTOFF_HOUR = 15`, `CUTOFF_MINUTE = 30`,
as minutes after local midnight. -/
def cutoffMinutesOfDay : Int := 15 * 60 + 30

/-- UTC offset (minutes) attached by `ET.localize` to local midnight of
the date whose day count since the epoch is `z`. -/
def offsetAtMidnightOfDay (z : Int) : Int :=
  let c := civilFromDays z
  offsetAtMidnight c.1 c.2.1 c.2.2

/-- Instant (UTC minutes since epoch) denoted by the pandas timestamp
produced in `membership_window` for the date with day count `z`:
`ET.localize(midnight)` followed by `.replace(hour=15, minute=30)`.
`localize` fixes the tzinfo to the UTC offset in effect at local
*midnight* of the date, and `.replace` keeps that tzinfo while changing
the wall clock to 15:30, so the denoted instant is wall-clock 15:30
minus the midnight offset. -/
def localizedCutoffInstant (z : Int) : Int :=
  z * 1440 + cutoffMinutesOfDay - offsetAtMidnightOfDay z

/-- Embedding of `membership_window` (src/orbit/preprocess/cutoffs.py).
A naive pandas date is embedded as its day count `z` since 1970-01-01
(write `daysFromCivil y m d` for a concrete calendar date); pandas
subtracting `pd.Timedelta(days=1)` is `z - 1`.  The function returns the
pair of instants `(ET.localize(T-1).replace(15:30),
ET.localize(T).replace(15:30))`, each as UTC minutes since the epoch. -/
def membership_window (z : Int) : Int × Int :=
  let start := localizedCutoffInstant (z - 1)
  let «end» := localizedCutoffInstant z
  (start, «end»)

/-- Result of `apply_cutoff`: the retained rows plus the audit fields the
function attaches as columns.  On an empty input the code returns early
and attaches no `dropped_late_count` column and NaT window columns; this
is modelled with `none`. -/
structure CutoffResult (α : Type) where
  rows : List α
  window_start_et : Option Int
  window_end_et : Option Int
  dropped_late_count : Option Nat
  deriving Repr, DecidableEq

/-- Embedding of `apply_cutoff` (src/orbit/preprocess/cutoffs.py).
`ts` projects the (timezone-aware) timestamp column out of a row; the
dataframe is the list `df`.  The mask is
`(ts > start) & (ts <= end)`; when `training` and
`safety_lag_minutes > 0`, the late mask `ts > end - safety_lag` is
subtracted from it, and `dropped_late_count` is `late_mask.sum()`
computed over the whole dataframe, exactly as in the source. -/
def apply_cutoff {α : Type} (ts : α → Int) (df : List α) (dateT : Int)
    (safety_lag_minutes : Int) (training : Bool) : CutoffResult α :=
  if df.isEmpty then
    { rows := [], window_start_et := none, window_end_et := none,
      dropped_late_count := none }
  else
    let w := membership_window dateT
    let start := w.1
    let «end» := w.2
    let mask : α → Bool := fun r => decide (start < ts r) && decide (ts r ≤ «end»)
    if training && decide (0 < safety_lag_minutes) then
      let safety_cutoff := «end» - safety_lag_minutes
      let late_mask : α → Bool := fun r => decide (safety_cutoff < ts r)
      { rows := df.filter (fun r => mask r && !late_mask r),
        window_start_et := some start, window_end_et := some «end»,
        dropped_late_count := some (df.countP late_mask) }
    else
      { rows := df.filter mask,
        window_start_et := some start, window_end_et := some «end»,
        dropped_late_count := some 0 }

/-- Splitting a `countP` by a second predicate; used to decompose the
late-record count of `apply_cutoff` into in-window and out-of-window
parts. -/
theorem countP_split {α : Type} (p q : α → Bool) (l : List α) :
    l.countP p
      = l.countP (fun x => q x && p x) + l.countP (fun x => !q x && p x) := by
  induction l with
  | nil => simp
  | cons a l ih =>
      by_cases hq : q a = true <;> by_cases hp : p a = true <;>
        simp [List.countP_cons, hq, hp, ih] <;> omega

/-- C1: `apply_cutoff` returns a subset (sublist) of the input rows, every
retained row's timestamp lies strictly after the window start and
at-or-before the window end, and when `training` is on with a positive
safety lag no retained row's timestamp exceeds `end - safety_lag`. -/
theorem apply_cutoff_in_window {α : Type} (ts : α → Int) (df : List α)
    (dateT safety_lag_minutes : Int) (training : Bool) :
    List.Sublist (apply_cutoff ts df dateT safety_lag_minutes training).rows df ∧
    (∀ r ∈ (apply_cutoff ts df dateT safety_lag_minutes training).rows,
      (membership_window dateT).1 < ts r ∧ ts r ≤ (membership_window dateT).2) ∧
    (training = true → 0 < safety_lag_minutes →
      ∀ r ∈ (apply_cutoff ts df dateT safety_lag_minutes training).rows,
        ts r ≤ (membership_window dateT).2 - safety_lag_minutes) := by
  unfold apply_cutoff
  split
  · simp
  · split
    next hT =>
      refine ⟨List.filter_sublist df, ?_, ?_⟩
      · intro r hr
        rw [List.mem_filter] at hr
        simp only [Bool.and_eq_true, Bool.not_eq_true', decide_eq_true_eq,
          decide_eq_false_iff_not] at hr
        exact hr.2.1
      · intro _ _ r hr
        rw [List.mem_filter] at hr
        simp only [Bool.and_eq_true, Bool.not_eq_true', decide_eq_true_eq,
          decide_eq_false_iff_not] at hr
        omega
    next hT =>
      refine ⟨List.filter_sublist df, ?_, ?_⟩
      · intro r hr
        rw [List.mem_filter] at hr
        simp only [Bool.and_eq_true, decide_eq_true_eq] at hr
        exact hr.2
      · intro htr hlag
        exact absurd (by simp [htr, hlag]) hT

/-- C1 witness: a concrete run of `apply_cutoff` for trading date
2024-11-05 with a 30-minute safety lag, with the hypotheses of
`apply_cutoff_in_window` discharged at that input. -/
theorem apply_cutoff_in_window_witness :
    ∀ r ∈ (apply_cutoff (fun t : Int => t) [(28846000 : Int), 28847300]
        (daysFromCivil 2024 11 5) 30 true).rows,
      r ≤ (membership_window (daysFromCivil 2024 11 5)).2 - 30 :=
  (apply_cutoff_in_window (fun t : Int => t) [(28846000 : Int), 28847300]
      (daysFromCivil 2024 11 5) 30 true).2.2 rfl (by decide)

/-- C2 counterexample: for the trading date T = 2024-11-04 (the Monday
after the US DST fall-back Sunday 2024-11-03), the window computed by
`membership_window` spans 1500 minutes (25 hours), not 24 hours: pytz's
`localize`-then-`replace` freezes the UTC offset that held at local
midnight, which differs between T-1 (EDT) and T (EST). -/
theorem membership_window_dst_counterexample :
    (membership_window (daysFromCivil 2024 11 4)).2
        - (membership_window (daysFromCivil 2024 11 4)).1 = 1500 ∧
    ¬ ((membership_window (daysFromCivil 2024 11 4)).2
        - (membership_window (daysFromCivil 2024 11 4)).1 = 24 * 60) := by
  decide

/-- C2 (amended): `membership_window` returns the 15:30 wall-clock
timestamps of T-1 and T carrying the UTC offsets in effect at local
midnight of each date; the duration `end - start` is 24 hours plus the
difference of those two midnight offsets, hence exactly 24 hours
whenever the offsets agree (all dates not adjacent to a DST change). -/
theorem membership_window_duration (z : Int) :
    ((membership_window z).2 - (membership_window z).1
      = 24 * 60 + (offsetAtMidnightOfDay (z - 1) - offsetAtMidnightOfDay z)) ∧
    (offsetAtMidnightOfDay (z - 1) = offsetAtMidnightOfDay z →
      (membership_window z).2 - (membership_window z).1 = 24 * 60) := by
  unfold membership_window localizedCutoffInstant cutoffMinutesOfDay
  dsimp only
  constructor
  · ring
  · intro h
    omega

/-- C2 witness: the amended duration law applied at the concrete
mid-summer trading date 2024-06-05, whose adjacent midnights are both in
EDT, so the window is exactly 24 hours. -/
theorem membership_window_duration_witness :
    (membership_window (daysFromCivil 2024 6 5)).2
      - (membership_window (daysFromCivil 2024 6 5)).1 = 24 * 60 :=
  (membership_window_duration (daysFromCivil 2024 6 5)).2 (by decide)

/-- C9 counterexample: for T = 2024-11-05 with a 30-minute safety lag, a
single record 100 minutes after the window end (so outside the window,
not dropped by the lag) is still counted: `dropped_late_count = 1`, while
the number of in-window records in `(end - lag, end]` is 0.  The code's
`late_mask.sum()` runs over the whole dataframe, not over the window. -/
theorem dropped_late_count_counterexample :
    (apply_cutoff (fun t : Int => t) [(28847410 : Int)]
        (daysFromCivil 2024 11 5) 30 true).dropped_late_count = some 1 ∧
    List.countP (fun t : Int =>
        (decide ((membership_window (daysFromCivil 2024 11 5)).1 < t) &&
          decide (t ≤ (membership_window (daysFromCivil 2024 11 5)).2)) &&
        decide ((membership_window (daysFromCivil 2024 11 5)).2 - 30 < t))
      [(28847410 : Int)] = 0 := by
  decide

/-- C9 (amended): in training mode with a positive safety lag,
`dropped_late_count` equals the number of input records with timestamp
strictly greater than `end - safety_lag` over the *whole* input: the sum
of those inside the membership window (the genuinely lag-dropped ones)
and those outside it (already excluded by the window mask). -/
theorem dropped_late_count_counts_all_late {α : Type} (ts : α → Int)
    (df : List α) (dateT safety_lag_minutes : Int)
    (hdf : ¬ df = []) (hlag : 0 < safety_lag_minutes) :
    (apply_cutoff ts df dateT safety_lag_minutes true).dropped_late_count
      = some (df.countP (fun r =>
            (decide ((membership_window dateT).1 < ts r) &&
              decide (ts r ≤ (membership_window dateT).2)) &&
            decide ((membership_window dateT).2 - safety_lag_minutes < ts r))
          + df.countP (fun r =>
            !(decide ((membership_window dateT).1 < ts r) &&
              decide (ts r ≤ (membership_window dateT).2)) &&
            decide ((membership_window dateT).2 - safety_lag_minutes < ts r))) := by
  unfold apply_cutoff
  split
  next hE =>
    exfalso
    exact hdf (List.isEmpty_iff.mp hE)
  next hE =>
    split
    next hT =>
      exact congrArg some (countP_split
        (fun r => decide ((membership_window dateT).2 - safety_lag_minutes < ts r))
        (fun r => decide ((membership_window dateT).1 < ts r) &&
          decide (ts r ≤ (membership_window dateT).2)) df)
    next hT =>
      exfalso
      exact hT (by simp [hlag])

/-- C9 witness: the amended count law applied at a concrete two-record
input for T = 2024-11-05 (one in-window late record, one out-of-window
late record), hypotheses discharged by computation. -/
theorem dropped_late_count_counts_all_late_witness :
    (apply_cutoff (fun t : Int => t) [(28847300 : Int), 28847410]
        (daysFromCivil 2024 11 5) 30 true).dropped_late_count
      = some (List.countP (fun r : Int =>
            (decide ((membership_window (daysFromCivil 2024 11 5)).1 < r) &&
              decide (r ≤ (membership_window (daysFromCivil 2024 11 5)).2)) &&
            decide ((membership_window (daysFromCivil 2024 11 5)).2 - 30 < r))
          [(28847300 : Int), 28847410]
        + List.countP (fun r : Int =>
            !(decide ((membership_window (daysFromCivil 2024 11 5)).1 < r) &&
              decide (r ≤ (membership_window (daysFromCivil 2024 11 5)).2)) &&
            decide ((membership_window (daysFromCivil 2024 11 5)).2 - 30 < r))
          [(28847300 : Int), 28847410]) :=
  dropped_late_count_counts_all_late (fun t : Int => t) _ _ _
    (by decide) (by decide)

/-! ## Streaming news client: buffer, dedupe and flush (src/orbit/ingest/news.py) -/

/-- A normalized news message, reduced to the fields the buffer logic
inspects: its `msg_id` plus an opaque payload standing for the remaining
schema fields. -/
structure NewsMsg where
  msg_id : String
  payload : String
  deriving Repr, DecidableEq

/-- State of `NewsBuffer` (news.py): the ordered `deque` of buffered
messages and the `seen_ids` set (modelled as a list inspected only
through membership).  `last_flush_time` is wall clock and plays no role
in the membership claims, so it is omitted. -/
structure NewsBuffer where
  buffer : List NewsMsg
  seen_ids : List String
  deriving Repr, DecidableEq

/-- Embedding of `NewsBuffer.add`: reject (returning `False`, state
unchanged) when the id was seen, otherwise record the id and append the
message. -/
def NewsBuffer.add (b : NewsBuffer) (msg : NewsMsg) : Bool × NewsBuffer :=
  if msg.msg_id ∈ b.seen_ids then (false, b)
  else (true, { buffer := b.buffer ++ [msg], seen_ids := msg.msg_id :: b.seen_ids })

/-- Embedding of `NewsBuffer.get_and_clear`: return the buffered messages
and clear the buffer.  Note `seen_ids` is left untouched. -/
def NewsBuffer.get_and_clear (b : NewsBuffer) : List NewsMsg × NewsBuffer :=
  (b.buffer, { buffer := [], seen_ids := b.seen_ids })

/-- An operation applied to a `NewsBuffer` during the client's lifetime. -/
inductive BufOp where
  | add (msg : NewsMsg)
  | getAndClear
  deriving Repr, DecidableEq

/-- State after one buffer operation. -/
def NewsBuffer.step (b : NewsBuffer) : BufOp → NewsBuffer
  | .add msg => (b.add msg).2
  | .getAndClear => b.get_and_clear.2

/-- State after a sequence of buffer operations. -/
def NewsBuffer.run (b : NewsBuffer) (ops : List BufOp) : NewsBuffer :=
  ops.foldl NewsBuffer.step b

/-- Unfolding `add` on an already-seen id. -/
theorem NewsBuffer.add_of_mem (b : NewsBuffer) (msg : NewsMsg)
    (h : msg.msg_id ∈ b.seen_ids) : b.add msg = (false, b) := by
  unfold NewsBuffer.add
  rw [if_pos h]

/-- Unfolding `add` on a fresh id. -/
theorem NewsBuffer.add_of_not_mem (b : NewsBuffer) (msg : NewsMsg)
    (h : ¬ msg.msg_id ∈ b.seen_ids) :
    b.add msg
      = (true, ⟨b.buffer ++ [msg], msg.msg_id :: b.seen_ids⟩) := by
  unfold NewsBuffer.add
  rw [if_neg h]

/-- The `seen_ids` set only ever grows: no operation (in particular not
`get_and_clear`) removes an id. -/
theorem NewsBuffer.seen_ids_mono (ops : List BufOp) (b : NewsBuffer)
    (id : String) (h : id ∈ b.seen_ids) : id ∈ (b.run ops).seen_ids := by
  induction ops generalizing b with
  | nil => exact h
  | cons op ops ih =>
      cases op with
      | add msg =>
          show id ∈ (NewsBuffer.run ((b.add msg).2) ops).seen_ids
          apply ih
          unfold NewsBuffer.add
          split
          · exact h
          · exact List.mem_cons_of_mem _ h
      | getAndClear => exact ih _ h

/-- C10: once a message has been accepted by `add`, any later message with
the same `msg_id` is rejected (`add` returns `False` and leaves the state
unchanged), no matter which adds and flushes happen in between:
`get_and_clear` never clears `seen_ids`, so deduplication spans the whole
client lifetime. -/
theorem NewsBuffer.add_rejects_previously_accepted (b : NewsBuffer)
    (msg : NewsMsg) (ops : List BufOp) (msg' : NewsMsg)
    (hacc : (b.add msg).1 = true) (hid : msg'.msg_id = msg.msg_id) :
    (((b.add msg).2.run ops).add msg').1 = false ∧
    (((b.add msg).2.run ops).add msg').2 = (b.add msg).2.run ops := by
  have hfresh : ¬ msg.msg_id ∈ b.seen_ids := by
    intro hmem
    rw [NewsBuffer.add_of_mem b msg hmem] at hacc
    exact Bool.false_ne_true hacc
  have hseen : msg.msg_id ∈ (b.add msg).2.seen_ids := by
    rw [NewsBuffer.add_of_not_mem b msg hfresh]
    exact List.mem_cons_self _ _
  have hrun : msg'.msg_id ∈ ((b.add msg).2.run ops).seen_ids := by
    rw [hid]
    exact NewsBuffer.seen_ids_mono ops _ _ hseen
  rw [NewsBuffer.add_of_mem _ _ hrun]
  exact ⟨rfl, rfl⟩

/-- C10 witness: a concrete lifetime with an intervening flush; the
duplicate of an accepted message is still rejected afterwards. -/
theorem NewsBuffer.add_rejects_previously_accepted_witness :
    ((((NewsBuffer.mk [] []).add ⟨"id1", "first"⟩).2.run
        [.getAndClear, .add ⟨"id2", "other"⟩]).add ⟨"id1", "replay"⟩).1 = false ∧
    ((((NewsBuffer.mk [] []).add ⟨"id1", "first"⟩).2.run
        [.getAndClear, .add ⟨"id2", "other"⟩]).add ⟨"id1", "replay"⟩).2
      = ((NewsBuffer.mk [] []).add ⟨"id1", "first"⟩).2.run
          [.getAndClear, .add ⟨"id2", "other"⟩] :=
  NewsBuffer.add_rejects_previously_accepted (NewsBuffer.mk [] [])
    ⟨"id1", "first"⟩ [.getAndClear, .add ⟨"id2", "other"⟩] ⟨"id1", "replay"⟩
    (by decide) rfl

/-- Client state relevant to flushing: the buffer and the
`flushes_completed` counter. -/
structure ClientState where
  buffer : NewsBuffer
  flushes_completed : Nat
  deriving Repr, DecidableEq

/-- Embedding of `AlpacaNewsClient._flush_buffer` (news.py:386-393).  The
method first calls `self.buffer.get_and_clear()` — which already empties
the buffer — and only then attempts `flush_to_parquet`; the outcome of
that persist step is the parameter `writeSucceeds` (`false` models the
write raising).  The returned flag is `false` when the write raised; note
the post-state's buffer is empty in every branch. -/
def flush_buffer (st : ClientState) (writeSucceeds : Bool) : Bool × ClientState :=
  let gc := st.buffer.get_and_clear
  let messages := gc.1
  let cleared : ClientState := { st with buffer := gc.2 }
  if messages.isEmpty then (true, cleared)
  else if writeSucceeds then
    (true, { cleared with flushes_completed := st.flushes_completed + 1 })
  else (false, cleared)

/-- C4: evaluating `_flush_buffer` at a failing write shows the bug: with
one buffered record and a persist step that raises, the post-state buffer
is empty — the record was dropped, not retained for retry, because
`get_and_clear` empties the buffer before the write is attempted. -/
theorem flush_buffer_drops_records_on_failed_write :
    (flush_buffer ⟨⟨[⟨"id1", "only record"⟩], ["id1"]⟩, 0⟩ false).1 = false ∧
    (flush_buffer ⟨⟨[⟨"id1", "only record"⟩], ["id1"]⟩, 0⟩ false).2.buffer.buffer
      = [] ∧
    (⟨⟨[⟨"id1", "only record"⟩], ["id1"]⟩, 0⟩ : ClientState).buffer.buffer ≠ [] := by
  decide

/-! ## Message-id derivation: WebSocket vs REST normalizer
(src/orbit/ingest/news.py `compute_msg_id` and
src/orbit/ingest/news_backfill.py `normalize_alpaca_rest_message`) -/

/-- A Python value as it appears in the provider's `id` field: Alpaca
sends an integer, but a string is also representable.  (`msg_id` ends up
holding either type, which is exactly what C5 is about.) -/
inductive PyVal where
  | int (n : Int)
  | str (s : String)
  deriving Repr, DecidableEq

/-- Python truthiness of such a value (`if msg["id"]` / `if not msg_id`):
`0` and `""` are falsy. -/
def pyTruthy : PyVal → Bool
  | .int n => decide (n ≠ 0)
  | .str s => decide (s ≠ "")

/-- Python `str()` of such a value. -/
def pyStr : PyVal → String
  | .int n => toString n
  | .str s => s

/-- The raw provider message/article, reduced to the fields the two
id-derivation paths inspect.  `none` models an absent key (`msg.get`
returns the default). -/
structure RawNews where
  id : Option PyVal
  headline : Option String
  source : Option String
  created_at : Option String
  published_at : Option String
  deriving Repr, DecidableEq

/-- Hash input of the WebSocket fallback (news.py:62):
`f"{msg.get('headline','')}{msg.get('source','')}{msg.get('published_at','')}"`.
Note it reads the *raw* message's `published_at` key — the raw Alpaca
payload carries `created_at`, not `published_at`, since `compute_msg_id`
is applied to the raw dict in `normalize_alpaca_message` (news.py:79). -/
def wsFallbackContent (msg : RawNews) : String :=
  msg.headline.getD "" ++ msg.source.getD "" ++ msg.published_at.getD ""

/-- Hash input of the REST fallback (news_backfill.py:195):
`f"{article.get('headline','')}{article.get('source','')}{article.get('created_at','')}"`. -/
def restFallbackContent (article : RawNews) : String :=
  article.headline.getD "" ++ article.source.getD "" ++ article.created_at.getD ""

/-- Embedding of `compute_msg_id` (news.py:45-63), parametric in the SHA-1
hex-digest function `sha1` (an arbitrary pure string function; every
theorem below holds for all choices).  A present truthy provider id is
returned as `str(msg["id"])`. -/
def compute_msg_id (sha1 : String → String) (msg : RawNews) : PyVal :=
  match msg.id with
  | some v =>
      if pyTruthy v then .str (pyStr v) else .str (sha1 (wsFallbackContent msg))
  | none => .str (sha1 (wsFallbackContent msg))

/-- Embedding of the `msg_id` computation inside
`normalize_alpaca_rest_message` (news_backfill.py:193-196): a present
truthy provider id is kept verbatim (as an int when the provider sent an
int), otherwise the SHA-1 fallback over the REST content. -/
def rest_msg_id (sha1 : String → String) (article : RawNews) : PyVal :=
  match article.id with
  | some v =>
      if pyTruthy v then v else .str (sha1 (restFallbackContent article))
  | none => .str (sha1 (restFallbackContent article))

/-- Left cancellation for string concatenation. -/
theorem string_append_left_cancel_iff (a x y : String) :
    a ++ x = a ++ y ↔ x = y := by
  constructor
  · intro h
    have hd := congrArg String.data h
    rw [String.data_append, String.data_append] at hd
    exact String.ext (List.append_cancel_left hd)
  · intro h
    rw [h]

/-- C5 counterexample: for an article carrying the provider id `5` (Alpaca
ids are integers), the WebSocket normalizer produces the *string* "5"
(`str(msg["id"])`) while the REST normalizer keeps the *int* 5, so the two
msg_ids differ in type and are unequal. -/
theorem msg_id_mismatch_counterexample :
    compute_msg_id (fun s => s)
        ⟨some (.int 5), some "h", some "s", some "2024-11-05T14:30:00Z", none⟩
      ≠ rest_msg_id (fun s => s)
        ⟨some (.int 5), some "h", some "s", some "2024-11-05T14:30:00Z", none⟩ := by
  decide

/-- C5 (amended): with a present truthy provider id, the WebSocket path
yields `str(id)` while the REST path keeps the id verbatim — equal only
up to `str()` rendering, not in value-and-type; with an absent or falsy
id, both fall back to a SHA-1 of their respective content strings, and
those content strings agree exactly when the raw message's
`published_at` field (read by the WebSocket path) coincides with its
`created_at` field (read by the REST path) — for raw Alpaca payloads,
which carry `created_at` only, they differ whenever `created_at` is
non-empty. -/
theorem msg_id_normalizer_comparison (sha1 : String → String) (msg : RawNews) :
    (∀ v, msg.id = some v → pyTruthy v = true →
      compute_msg_id sha1 msg = .str (pyStr v) ∧
      rest_msg_id sha1 msg = v ∧
      pyStr (compute_msg_id sha1 msg) = pyStr (rest_msg_id sha1 msg)) ∧
    ((msg.id = none ∨ ∃ v, msg.id = some v ∧ pyTruthy v = false) →
      compute_msg_id sha1 msg = .str (sha1 (wsFallbackContent msg)) ∧
      rest_msg_id sha1 msg = .str (sha1 (restFallbackContent msg))) ∧
    (wsFallbackContent msg = restFallbackContent msg ↔
      msg.published_at.getD "" = msg.created_at.getD "") := by
  refine ⟨?_, ?_, ?_⟩
  · intro v hv htruthy
    unfold compute_msg_id rest_msg_id
    rw [hv]
    simp [htruthy, pyStr]
  · intro hfb
    unfold compute_msg_id rest_msg_id
    rcases hfb with hnone | ⟨v, hv, hfalsy⟩
    · rw [hnone]
      exact ⟨rfl, rfl⟩
    · rw [hv]
      simp [hfalsy]
  · unfold wsFallbackContent restFallbackContent
    rw [String.append_assoc, String.append_assoc,
      string_append_left_cancel_iff, string_append_left_cancel_iff]

/-- C5 witness: the amended comparison applied to the repo's own test
article (provider id 123456): WebSocket yields the string "123456", REST
keeps the integer 123456. -/
theorem msg_id_normalizer_comparison_witness :
    compute_msg_id (fun s => s)
        ⟨some (.int 123456), some "Test headline", some "Reuters",
          some "2024-11-05T14:30:00Z", none⟩
      = .str "123456" ∧
    rest_msg_id (fun s => s)
        ⟨some (.int 123456), some "Test headline", some "Reuters",
          some "2024-11-05T14:30:00Z", none⟩
      = .int 123456 := by
  have h := (msg_id_normalizer_comparison (fun s => s)
      ⟨some (.int 123456), some "Test headline", some "Reuters",
        some "2024-11-05T14:30:00Z", none⟩).1
    (.int 123456) rfl (by decide)
  exact ⟨h.1, h.2.1⟩

/-! ## Novelty scoring (src/orbit/preprocess/dedupe.py) -/

/-- Bit-population count, the model of Python's `bin(x).count('1')`
(dedupe.py `hamming_distance`).  Written with an explicit fuel argument
(initialised to `n`, which bounds the number of halvings) so that the
function evaluates by kernel reduction; the branch structure is the
usual binary expansion. -/
def popcountAux : Nat → Nat → Nat
  | 0, _ => 0
  | fuel + 1, n => if n = 0 then 0 else n % 2 + popcountAux fuel (n / 2)

/-- Number of 1-bits of `n`. -/
def popcount (n : Nat) : Nat := popcountAux n n

/-- Embedding of `hamming_distance` (dedupe.py:100-110):
`bin(hash1 ^ hash2).count('1')`. -/
def hamming_distance (hash1 hash2 : Nat) : Nat :=
  popcount (hash1 ^^^ hash2)

/-- Embedding of `compute_novelty` (dedupe.py:234-284), parametric in the
SHA-256-based `compute_simhash` (an arbitrary pure function `simhash`;
the claims hold for every choice).  Scores are rationals: every float
operation the code performs here is exact in binary floating point
(`min_distance` is an integer in `[0, threshold]`, `k/64.0` has a
power-of-two denominator, and the subtractions stay in `[-1, 1]` on
values with a 6-bit significand), so `ℚ` is a faithful carrier. -/
def compute_novelty (simhash : String → Nat)
    (current_texts reference_texts : List String) (threshold : Nat) : List ℚ :=
  if current_texts.isEmpty then []
  else if reference_texts.isEmpty then current_texts.map (fun _ => 1)
  else
    let current_hashes := current_texts.map simhash
    let reference_hashes := reference_texts.map simhash
    current_hashes.map (fun cur_hash =>
      let min_distance :=
        reference_hashes.foldl (fun acc r => min acc (hamming_distance cur_hash r))
          threshold
      let similarity : ℚ := 1 - (min_distance : ℚ) / 64
      let novelty : ℚ := 1 - similarity
      max 0 (min 1 novelty))

/-- A running minimum never exceeds its seed. -/
theorem foldl_min_le_init (l : List Nat) (a : Nat) : l.foldl min a ≤ a := by
  induction l generalizing a with
  | nil => exact Nat.le_refl a
  | cons b l ih => exact Nat.le_trans (ih (min a b)) (Nat.min_le_left a b)

/-- A running minimum is at most each element of the list. -/
theorem foldl_min_le_of_mem (l : List Nat) (a x : Nat) :
    x ∈ l → l.foldl min a ≤ x := by
  induction l generalizing a with
  | nil => intro hx; cases hx
  | cons b l ih =>
      intro hx
      rcases List.mem_cons.mp hx with rfl | hx
      · exact Nat.le_trans (foldl_min_le_init l (min a x)) (Nat.min_le_right a x)
      · exact ih (min a b) hx

/-- Folding `min acc (g r)` over `l` is folding `min` over `l.map g`. -/
theorem foldl_min_map {α : Type} (g : α → Nat) (l : List α) (a : Nat) :
    l.foldl (fun acc r => min acc (g r)) a = (l.map g).foldl min a := by
  induction l generalizing a with
  | nil => rfl
  | cons b l ih => exact ih (min a (g b))

/-- A record has Hamming distance 0 to itself. -/
theorem hamming_distance_self (h : Nat) : hamming_distance h h = 0 := by
  unfold hamming_distance
  rw [Nat.xor_self]
  rfl

/-- C8: `compute_novelty` on a non-empty batch returns exactly 1 for every
record when the reference corpus is empty; returns 0 for a record whose
text also occurs in the reference corpus; and every returned score lies
in [0, 1]. -/
theorem compute_novelty_spec (simhash : String → Nat)
    (cur ref : List String) (threshold : Nat) (hcur : cur ≠ []) :
    compute_novelty simhash cur [] threshold = cur.map (fun _ => (1 : ℚ)) ∧
    (∀ (i : Nat) (t : String), cur[i]? = some t → t ∈ ref →
      (compute_novelty simhash cur ref threshold)[i]? = some (0 : ℚ)) ∧
    (∀ q ∈ compute_novelty simhash cur ref threshold, 0 ≤ q ∧ q ≤ 1) := by
  refine ⟨?_, ?_, ?_⟩
  · cases cur <;> simp [compute_novelty]
  · intro i t hget hmem
    have hrefE : ref.isEmpty = false := by
      cases ref with
      | nil => exact absurd hmem (List.not_mem_nil t)
      | cons a l => rfl
    have hcurE : cur.isEmpty = false := by
      cases cur with
      | nil => exact absurd rfl hcur
      | cons a l => rfl
    unfold compute_novelty
    rw [hcurE, hrefE]
    simp only [Bool.false_eq_true, if_false]
    rw [List.getElem?_map, List.getElem?_map, hget]
    simp only [Option.map_some']
    have hzero :
        (ref.map simhash).foldl
            (fun acc r => min acc (hamming_distance (simhash t) r)) threshold
          = 0 := by
      rw [foldl_min_map (fun r => hamming_distance (simhash t) r) (ref.map simhash)
        threshold]
      refine Nat.le_zero.mp ?_
      have hx : hamming_distance (simhash t) (simhash t)
          ∈ (ref.map simhash).map (fun r => hamming_distance (simhash t) r) :=
        List.mem_map_of_mem _ (List.mem_map_of_mem simhash hmem)
      calc ((ref.map simhash).map
              (fun r => hamming_distance (simhash t) r)).foldl min threshold
            ≤ hamming_distance (simhash t) (simhash t) :=
              foldl_min_le_of_mem _ _ _ hx
        _ = 0 := hamming_distance_self (simhash t)
    rw [hzero]
    norm_num
  · intro q hq
    unfold compute_novelty at hq
    split at hq
    · cases hq
    · split at hq
      · rcases List.mem_map.mp hq with ⟨t, _, rfl⟩
        norm_num
      · rcases List.mem_map.mp hq with ⟨h, _, rfl⟩
        constructor
        · exact le_max_left 0 _
        · exact max_le (by norm_num) (min_le_left 1 _)

/-- C8 witness: a concrete batch scored against a reference corpus that
contains one of its texts, with the hypotheses discharged at that
input. -/
theorem compute_novelty_spec_witness :
    (compute_novelty String.length ["ab"] ["xyz", "ab"] 64)[0]? = some 0 :=
  (compute_novelty_spec String.length ["ab"] ["xyz", "ab"] 64
      (by decide)).2.1 0 "ab" rfl (by decide)

/-! ## Credential rotation (src/orbit/utils/key_rotation.py) -/

/-- Usage record for one API key (`KeyUsage` dataclass).  The reset date
is an abstract day stamp (the local calendar date in the configured reset
timezone); `none` models the initial `last_reset_date = None`. -/
structure KeyUsage where
  key_name : String
  key_value : String
  requests_today : Nat
  tokens_today : Nat
  last_reset_date : Option Nat
  deriving Repr, DecidableEq

/-- Embedding of `KeyUsage.reset_if_new_day`: the current date `today`
replaces the `datetime.now` lookup; counters are zeroed when the stored
reset date differs from today. -/
def reset_if_new_day (today : Nat) (k : KeyUsage) : KeyUsage :=
  if k.last_reset_date ≠ some today then
    { k with requests_today := 0, tokens_today := 0, last_reset_date := some today }
  else k

/-- The two rotation strategies. -/
inductive RotationStrategy where
  | round_robin
  | least_used
  deriving Repr, DecidableEq

/-- Manager state (`KeyRotationManager`): the key pool, strategy, optional
daily quota, safety margin (a rational; the repo default `0.95` is
`19/20` — for it, Python's `int(quota * 0.95)` equals the exact floor
taken here), the round-robin cursor and the switch counter. -/
structure KeyRotationManager where
  keys : List KeyUsage
  strategy : RotationStrategy
  quota_rpd : Option Nat
  safety_margin : ℚ
  current_index : Nat
  key_switches : Nat
  deriving Repr, DecidableEq

/-- The per-period request ceiling `int(self.quota_rpd * self.safety_margin)`:
the floor of `q * margin`, computed on the rational's fields
(`q * margin = q * margin.num / margin.den` and `margin.den > 0`, so the
integer floor division below is exactly that floor; for the nonnegative
margins the manager is configured with — the repo default 0.95 = 19/20,
where Python's float `int(q * 0.95)` agrees with the exact floor —
truncation and floor coincide). -/
def quota_limit (q : Nat) (margin : ℚ) : Nat :=
  (((q : Int) * margin.num) / (margin.den : Int)).toNat

/-- Placeholder key used for out-of-range list indexing (never reached on
the in-range indices the manager uses). -/
def dummyKey : KeyUsage := ⟨"", "", 0, 0, none⟩

/-- Embedding of `_is_key_available` on an already-reset key: with a
truthy daily quota, available means `requests_today` is below the quota
limit; `quota_rpd` of `None` or `0` (Python falsy) disables the check.
(`get_next_key` resets every key first, making the method's own
`reset_if_new_day` call a no-op, so availability is a pure predicate
here.) -/
def is_key_available (quota_rpd : Option Nat) (margin : ℚ) (k : KeyUsage) : Bool :=
  match quota_rpd with
  | some q =>
      if q ≠ 0 then decide (k.requests_today < quota_limit q margin) else true
  | none => true

/-- Embedding of the loop of `_get_next_round_robin`: try up to `fuel`
keys starting at `idx`, advancing the cursor (mod `n`) and bumping the
switch counter before each availability check, exactly as the source
does; returns `(chosen index, new cursor, new switch count)` or `none`
when the whole cycle found no available key (the `RuntimeError`). -/
def rr_loop (avail : Nat → Bool) (n : Nat) : Nat → Nat → Nat → Option (Nat × Nat × Nat)
  | _, _, 0 => none
  | idx, switches, fuel + 1 =>
      let next_index := (idx + 1) % n
      let switches' := if next_index ≠ idx then switches + 1 else switches
      if avail idx then some (idx, next_index, switches')
      else rr_loop avail n next_index switches' fuel

/-- Embedding of Python's `min(available_keys, key=lambda k:
k.requests_today)`: the first element attaining the minimal usage. -/
def py_min_by_requests (k0 : KeyUsage) (ks : List KeyUsage) : KeyUsage :=
  ks.foldl (fun best k => if k.requests_today < best.requests_today then k else best) k0

/-- Embedding of `get_next_key`: reset every key for `today`
(`_reset_all_keys_if_new_day`), then dispatch on the strategy.  `none`
models the `RuntimeError` raised when every key is exhausted. -/
def get_next_key (m : KeyRotationManager) (today : Nat) :
    Option (KeyUsage × KeyRotationManager) :=
  let keys' := m.keys.map (reset_if_new_day today)
  let m' : KeyRotationManager := { m with keys := keys' }
  match m.strategy with
  | .round_robin =>
      match rr_loop
          (fun i => is_key_available m.quota_rpd m.safety_margin (keys'.getD i dummyKey))
          keys'.length m.current_index m.key_switches keys'.length with
      | some (i, next_index, sw) =>
          some (keys'.getD i dummyKey,
            { m' with current_index := next_index, key_switches := sw })
      | none => none
  | .least_used =>
      match keys'.filter (is_key_available m.quota_rpd m.safety_margin) with
      | [] => none
      | k0 :: ks =>
          some (py_min_by_requests k0 ks,
            { m' with key_switches := m.key_switches + 1 })

/-- Availability under a positive daily quota is exactly "usage below the
quota limit". -/
theorem is_key_available_iff (q : Nat) (margin : ℚ) (k : KeyUsage) (hq : 0 < q) :
    is_key_available (some q) margin k = true ↔
      k.requests_today < quota_limit q margin := by
  unfold is_key_available
  dsimp only
  rw [if_pos (Nat.pos_iff_ne_zero.mp hq)]
  exact ⟨of_decide_eq_true, decide_eq_true⟩

/-- The round-robin loop returns `none` exactly when every key probed in
its `fuel`-long scan (the cursor walk `idx, idx+1, ...` mod `n`) is
unavailable. -/
theorem rr_loop_none_iff (avail : Nat → Bool) (n fuel idx sw : Nat)
    (hidx : idx < n) :
    rr_loop avail n idx sw fuel = none ↔
      ∀ t, t < fuel → avail ((idx + t) % n) = false := by
  induction fuel generalizing idx sw with
  | zero =>
      constructor
      · intro _ t ht
        exact absurd ht (Nat.not_lt_zero t)
      · intro _
        rfl
  | succ fuel ih =>
      have hn : 0 < n := Nat.lt_of_le_of_lt (Nat.zero_le idx) hidx
      unfold rr_loop
      by_cases ha : avail idx = true
      · rw [if_pos ha]
        constructor
        · intro h
          exact absurd h (by simp)
        · intro h
          have h0 := h 0 (Nat.succ_pos fuel)
          rw [Nat.add_zero, Nat.mod_eq_of_lt hidx, ha] at h0
          exact absurd h0 (by simp)
      · rw [if_neg ha]
        rw [ih ((idx + 1) % n) _ (Nat.mod_lt _ hn)]
        constructor
        · intro h t ht
          cases t with
          | zero =>
              rw [Nat.add_zero, Nat.mod_eq_of_lt hidx]
              exact Bool.not_eq_true (avail idx) |>.mp ha
          | succ t =>
              have hmod : ((idx + 1) % n + t) % n = (idx + (t + 1)) % n := by
                have := Nat.ModEq.add_right t (Nat.mod_modEq (idx + 1) n)
                unfold Nat.ModEq at this
                rw [this]
                congr 1
                omega
              rw [← hmod]
              exact h t (Nat.lt_of_succ_lt_succ ht)
        · intro h t ht
          have hmod : ((idx + 1) % n + t) % n = (idx + (t + 1)) % n := by
            have := Nat.ModEq.add_right t (Nat.mod_modEq (idx + 1) n)
            unfold Nat.ModEq at this
            rw [this]
            congr 1
            omega
          rw [hmod]
          exact h (t + 1) (Nat.succ_lt_succ ht)

/-- A `fuel = n` scan starting anywhere probes every index below `n`. -/
theorem forall_residue_iff (avail : Nat → Bool) (n idx : Nat) (hidx : idx < n) :
    (∀ t, t < n → avail ((idx + t) % n) = false) ↔
      ∀ j, j < n → avail j = false := by
  have hn : 0 < n := Nat.lt_of_le_of_lt (Nat.zero_le idx) hidx
  constructor
  · intro h j hj
    have ht : (j + n - idx) % n < n := Nat.mod_lt _ hn
    have hkey := h ((j + n - idx) % n) ht
    have hmod : (idx + (j + n - idx) % n) % n = j := by
      have h1 : (idx + (j + n - idx) % n) % n = (idx + (j + n - idx)) % n := by
        have := Nat.ModEq.add_left idx (Nat.mod_modEq (j + n - idx) n)
        unfold Nat.ModEq at this
        rw [this]
      have h2 : idx + (j + n - idx) = j + n := by omega
      rw [h1, h2, Nat.add_mod_right, Nat.mod_eq_of_lt hj]
    rwa [hmod] at hkey
  · intro h t _
    exact h _ (Nat.mod_lt _ hn)

/-- When the round-robin loop returns a key index, that index is in range
and the key there is available. -/
theorem rr_loop_some_avail (avail : Nat → Bool) (n : Nat) :
    ∀ (fuel idx sw i nx sw2 : Nat), idx < n →
      rr_loop avail n idx sw fuel = some (i, nx, sw2) →
      avail i = true ∧ i < n := by
  intro fuel
  induction fuel with
  | zero =>
      intro idx sw i nx sw2 _ h
      exact absurd h (by simp [rr_loop])
  | succ fuel ih =>
      intro idx sw i nx sw2 hidx h
      have hn : 0 < n := Nat.lt_of_le_of_lt (Nat.zero_le idx) hidx
      unfold rr_loop at h
      by_cases ha : avail idx = true
      · rw [if_pos ha] at h
        simp only [Option.some.injEq, Prod.mk.injEq] at h
        obtain ⟨rfl, -, -⟩ := h
        exact ⟨ha, hidx⟩
      · rw [if_neg ha] at h
        exact ih _ _ i nx sw2 (Nat.mod_lt _ hn) h

/-- Quantifying over list members is quantifying over in-range `getD`
lookups. -/
theorem forall_mem_iff_forall_getD {α : Type} (l : List α) (d : α) (p : α → Prop) :
    (∀ k ∈ l, p k) ↔ ∀ j, j < l.length → p (l.getD j d) := by
  constructor
  · intro h j hj
    rw [List.getD_eq_getElem l d hj]
    exact h _ (List.getElem_mem hj)
  · intro h k hk
    obtain ⟨j, hj, rfl⟩ := List.mem_iff_getElem.mp hk
    have := h j hj
    rwa [List.getD_eq_getElem l d hj] at this

/-- `min(..., key=...)` returns one of its arguments. -/
theorem py_min_by_requests_mem (ks : List KeyUsage) :
    ∀ k0 : KeyUsage, py_min_by_requests k0 ks ∈ k0 :: ks := by
  unfold py_min_by_requests
  induction ks with
  | nil =>
      intro k0
      exact List.mem_cons_self k0 []
  | cons b ks ih =>
      intro k0
      have hstep := ih (if b.requests_today < k0.requests_today then b else k0)
      rcases List.mem_cons.mp hstep with heq | hmem
      · rw [List.foldl_cons, heq]
        split
        · exact List.mem_cons_of_mem _ (List.mem_cons_self b ks)
        · exact List.mem_cons_self _ _
      · rw [List.foldl_cons]
        exact List.mem_cons_of_mem _ (List.mem_cons_of_mem b hmem)

/-- C6: with a positive daily quota configured, `get_next_key` (under
either strategy; for round-robin this is after the full cycle of probes)
fails with exhaustion exactly when every key's post-reset `requests_today`
has reached `int(quota_rpd * safety_margin)`, and otherwise returns one of
the pool's keys whose usage is below that limit. -/
theorem get_next_key_exhaustion (m : KeyRotationManager) (today : Nat) (q : Nat)
    (hq : m.quota_rpd = some q) (hq0 : 0 < q)
    (hidx : m.current_index < m.keys.length) :
    (get_next_key m today = none ↔
      ∀ k ∈ m.keys.map (reset_if_new_day today),
        quota_limit q m.safety_margin ≤ k.requests_today) ∧
    (∀ (k : KeyUsage) (m₂ : KeyRotationManager),
      get_next_key m today = some (k, m₂) →
      k ∈ m.keys.map (reset_if_new_day today) ∧
      k.requests_today < quota_limit q m.safety_margin) := by
  have hlen : (m.keys.map (reset_if_new_day today)).length = m.keys.length :=
    List.length_map _ _
  have hidx' : m.current_index < (m.keys.map (reset_if_new_day today)).length := by
    rw [hlen]; exact hidx
  have havail : ∀ k : KeyUsage,
      is_key_available m.quota_rpd m.safety_margin k = false ↔
      quota_limit q m.safety_margin ≤ k.requests_today := by
    intro k
    rw [hq]
    constructor
    · intro hfalse
      by_contra hlt
      rw [(is_key_available_iff q m.safety_margin k hq0).mpr (by omega)] at hfalse
      exact absurd hfalse (by simp)
    · intro hle
      by_contra hne
      have htrue : is_key_available (some q) m.safety_margin k = true := by
        cases hb : is_key_available (some q) m.safety_margin k with
        | true => rfl
        | false => exact absurd hb hne
      have := (is_key_available_iff q m.safety_margin k hq0).mp htrue
      omega
  have hAiff := rr_loop_none_iff
    (fun i => is_key_available m.quota_rpd m.safety_margin
      ((m.keys.map (reset_if_new_day today)).getD i dummyKey))
    (m.keys.map (reset_if_new_day today)).length
    (m.keys.map (reset_if_new_day today)).length
    m.current_index m.key_switches hidx'
  have hRes := forall_residue_iff
    (fun i => is_key_available m.quota_rpd m.safety_margin
      ((m.keys.map (reset_if_new_day today)).getD i dummyKey))
    (m.keys.map (reset_if_new_day today)).length m.current_index hidx'
  have hAllFalse : (∀ k ∈ m.keys.map (reset_if_new_day today),
      quota_limit q m.safety_margin ≤ k.requests_today) ↔
      ∀ j, j < (m.keys.map (reset_if_new_day today)).length →
        is_key_available m.quota_rpd m.safety_margin
          ((m.keys.map (reset_if_new_day today)).getD j dummyKey) = false := by
    rw [forall_mem_iff_forall_getD _ dummyKey]
    constructor
    · intro h j hj
      exact (havail _).mpr (h j hj)
    · intro h j hj
      exact (havail _).mp (h j hj)
  cases hstrat : m.strategy with
  | round_robin =>
      constructor
      · unfold get_next_key
        rw [hstrat]
        dsimp only
        split
        · rename_i i nx sw hrr
          constructor
          · intro h
            exact absurd h (by simp)
          · intro hall
            have hnone := hAiff.mpr (hRes.mpr (hAllFalse.mp hall))
            rw [hnone] at hrr
            exact absurd hrr (by simp)
        · rename_i hrr
          constructor
          · intro _
            exact hAllFalse.mpr (hRes.mp (hAiff.mp hrr))
          · intro _
            rfl
      · intro k m₂ hsome
        unfold get_next_key at hsome
        rw [hstrat] at hsome
        dsimp only at hsome
        split at hsome
        · rename_i i nx sw hrr
          simp only [Option.some.injEq, Prod.mk.injEq] at hsome
          obtain ⟨hki, -⟩ := hsome
          have hia := rr_loop_some_avail
            (fun i => is_key_available m.quota_rpd m.safety_margin
              ((m.keys.map (reset_if_new_day today)).getD i dummyKey))
            (m.keys.map (reset_if_new_day today)).length
            (m.keys.map (reset_if_new_day today)).length
            m.current_index m.key_switches i nx sw hidx' hrr
          have hmem : (m.keys.map (reset_if_new_day today)).getD i dummyKey
              ∈ m.keys.map (reset_if_new_day today) := by
            rw [List.getD_eq_getElem _ dummyKey hia.2]
            exact List.getElem_mem hia.2
          have hlim : ((m.keys.map (reset_if_new_day today)).getD i
              dummyKey).requests_today < quota_limit q m.safety_margin := by
            have hav := hia.1
            rw [hq] at hav
            exact (is_key_available_iff q m.safety_margin _ hq0).mp hav
          rw [← hki]
          exact ⟨hmem, hlim⟩
        · rename_i hrr
          exact absurd hsome (by simp)
  | least_used =>
      constructor
      · unfold get_next_key
        rw [hstrat]
        dsimp only
        split
        · rename_i hF
          constructor
          · intro _ k hk
            have hnp := List.filter_eq_nil_iff.mp hF k hk
            refine (havail k).mp ?_
            cases hb : is_key_available m.quota_rpd m.safety_margin k with
            | false => rfl
            | true => exact absurd hb hnp
          · intro _
            rfl
        · rename_i k0 ks hF
          constructor
          · intro h
            exact absurd h (by simp)
          · intro hall
            have hk0 : k0 ∈ (m.keys.map (reset_if_new_day today)).filter
                (is_key_available m.quota_rpd m.safety_margin) := by
              rw [hF]
              exact List.mem_cons_self k0 ks
            have hmf := List.mem_filter.mp hk0
            have hfalse := (havail k0).mpr (hall k0 hmf.1)
            rw [hmf.2] at hfalse
            exact absurd hfalse (by simp)
      · intro k m₂ hsome
        unfold get_next_key at hsome
        rw [hstrat] at hsome
        dsimp only at hsome
        split at hsome
        · rename_i hF
          exact absurd hsome (by simp)
        · rename_i k0 ks hF
          simp only [Option.some.injEq, Prod.mk.injEq] at hsome
          obtain ⟨hki, -⟩ := hsome
          have hmemF : k ∈ (m.keys.map (reset_if_new_day today)).filter
              (is_key_available m.quota_rpd m.safety_margin) := by
            rw [hF, ← hki]
            exact py_min_by_requests_mem ks k0
          have hmf := List.mem_filter.mp hmemF
          refine ⟨hmf.1, ?_⟩
          have hav := hmf.2
          rw [hq] at hav
          exact (is_key_available_iff q m.safety_margin k hq0).mp hav

/-- C6 witness: a two-key round-robin pool with quota 200 and margin
19/20 in which the first key has reached the 190-request ceiling; the
rotator skips it and returns the second key, whose usage is below the
ceiling. -/
theorem get_next_key_exhaustion_witness :
    (⟨"GEMINI_API_KEY_2", "v2", 10, 0, some 5⟩ : KeyUsage)
        ∈ ([⟨"GEMINI_API_KEY_1", "v1", 190, 0, some 5⟩,
            ⟨"GEMINI_API_KEY_2", "v2", 10, 0, some 5⟩] :
              List KeyUsage).map (reset_if_new_day 5) ∧
    (10 : Nat) < quota_limit 200 (mkRat 19 20) :=
  (get_next_key_exhaustion
      ⟨[⟨"GEMINI_API_KEY_1", "v1", 190, 0, some 5⟩,
        ⟨"GEMINI_API_KEY_2", "v2", 10, 0, some 5⟩],
        .round_robin, some 200, mkRat 19 20, 0, 0⟩ 5 200 rfl (by decide)
      (by decide)).2
    ⟨"GEMINI_API_KEY_2", "v2", 10, 0, some 5⟩
    ⟨[⟨"GEMINI_API_KEY_1", "v1", 190, 0, some 5⟩,
      ⟨"GEMINI_API_KEY_2", "v2", 10, 0, some 5⟩],
      .round_robin, some 200, mkRat 19 20, 0, 2⟩
    (by decide)

/-! ## Checkpointed backfill (src/orbit/ingest/news_backfill.py)

The REST backfill walks the date range in daily sub-ranges and paginates
each day; fetched articles accumulate in the in-memory `current_articles`
list and are written to partitioned storage only after the whole loop
finishes (news_backfill.py:465-479), while the checkpoint's `last_date`
advances to the day currently being paginated every
`CHECKPOINT_INTERVAL = 100` requests (news_backfill.py:449-457, saved
only when a further page token exists).  On resume the start date jumps
to the checkpointed `last_date` (news_backfill.py:289-294) and
already-written date partitions are skipped (news_backfill.py:347-351).
Days are abstracted to naturals, and each day carries its page count;
every fetched page is assumed to contain articles for its day. -/

/-- Persisted checkpoint content: `last_date` (the day being paginated
when the checkpoint was saved) and the cumulative `requests_made`. -/
structure Checkpoint where
  last_date : Nat
  requests_made : Nat
  deriving Repr, DecidableEq

/-- Paginate one day: each page is one request; a `next_page_token`
exists exactly while pages remain; after a tokened page, the checkpoint
is saved when `requests_made % 100 == 0` (the save sits after the token
check in the source, so the final page of a day never checkpoints).
`crash_after = some c` interrupts the run once request `c` (and its
checkpoint bookkeeping) has completed.  Returns
`(requests_made, checkpoint, crashed)`. -/
def run_pages (day : Nat) (crash_after : Option Nat) :
    Nat → Nat → Option Checkpoint → Nat × Option Checkpoint × Bool
  | 0, reqs, ckpt => (reqs, ckpt, false)
  | rem + 1, reqs, ckpt =>
      let reqs' := reqs + 1
      let has_token := rem ≠ 0
      let ckpt' := if has_token ∧ reqs' % 100 = 0 then some ⟨day, reqs'⟩ else ckpt
      let crashed_now : Bool :=
        match crash_after with
        | some c => decide (c ≤ reqs')
        | none => false
      if crashed_now then (reqs', ckpt', true)
      else if has_token then run_pages day crash_after rem reqs' ckpt'
      else (reqs', ckpt', false)

/-- Iterate the daily sub-ranges in order, stopping at a crash.  Returns
`(days fetched into memory, requests_made, checkpoint, crashed)`. -/
def run_days (crash_after : Option Nat) :
    List (Nat × Nat) → Nat → Option Checkpoint →
      List Nat × Nat × Option Checkpoint × Bool
  | [], reqs, ckpt => ([], reqs, ckpt, false)
  | (day, pages) :: rest, reqs, ckpt =>
      let p := run_pages day crash_after pages reqs ckpt
      if p.2.2 then ([day], p.1, p.2.1, true)
      else
        let r := run_days crash_after rest p.1 p.2.1
        (day :: r.1, r.2.1, r.2.2.1, r.2.2.2)

/-- Outcome of one invocation of `backfill_news_date_range`. -/
structure RunOutcome where
  fetched_days : List Nat
  written_days : List Nat
  checkpoint : Option Checkpoint
  deriving Repr, DecidableEq

/-- Embedding of one `backfill_news_date_range` invocation over the days
`days` (with page counts): resume jumps the start to the checkpoint's
`last_date` when it is later (news_backfill.py:289-294) and restores
`requests_made`; days with existing output partitions are skipped;
articles are written (their days becoming partitions) only when the loop
completed without interruption, and the checkpoint file is deleted only
then (news_backfill.py:486-488) — on a crash the partial
`current_articles` are lost with the process. -/
def backfill_run (days : List (Nat × Nat)) (existing : List Nat)
    (start_day : Nat) (ckpt0 : Option Checkpoint) (crash_after : Option Nat) :
    RunOutcome :=
  let resume_start :=
    match ckpt0 with
    | some c => if start_day < c.last_date then c.last_date else start_day
    | none => start_day
  let reqs0 :=
    match ckpt0 with
    | some c => c.requests_made
    | none => 0
  let todo := days.filter
    (fun p => decide (resume_start ≤ p.1) && !(existing.contains p.1))
  let r := run_days crash_after todo reqs0 ckpt0
  { fetched_days := r.1,
    written_days := if r.2.2.2 then existing else existing ++ r.1,
    checkpoint := if r.2.2.2 then r.2.2.1 else none }

/-- C3: an interrupted backfill silently loses a fetched day.  Over the
three-day range where day 0 has 99 pages, day 1 has 2 and day 2 has 1,
a crash right after request 100 (the first page of day 1, which saved
the checkpoint `last_date = 1`) leaves day 0's 99 fetched pages
unwritten; the resumed run starts at day 1, never re-fetches day 0, and
finishes having persisted only days 1 and 2 — the checkpoint invariant
of the claim ("never silently skip an incomplete sub-range") is violated
by the code. -/
theorem backfill_resume_skips_unwritten_day :
    (0 ∈ (backfill_run [(0, 99), (1, 2), (2, 1)] [] 0 none
        (some 100)).fetched_days) ∧
    (backfill_run [(0, 99), (1, 2), (2, 1)] [] 0 none (some 100)).written_days
      = [] ∧
    (backfill_run [(0, 99), (1, 2), (2, 1)] [] 0 none (some 100)).checkpoint
      = some ⟨1, 100⟩ ∧
    (backfill_run [(0, 99), (1, 2), (2, 1)]
        (backfill_run [(0, 99), (1, 2), (2, 1)] [] 0 none
          (some 100)).written_days 0
        (backfill_run [(0, 99), (1, 2), (2, 1)] [] 0 none
          (some 100)).checkpoint none).written_days = [1, 2] ∧
    ¬ (0 ∈ (backfill_run [(0, 99), (1, 2), (2, 1)]
        (backfill_run [(0, 99), (1, 2), (2, 1)] [] 0 none
          (some 100)).written_days 0
        (backfill_run [(0, 99), (1, 2), (2, 1)] [] 0 none
          (some 100)).checkpoint none).fetched_days) := by
  decide

/-! ## Duplicate clustering (src/orbit/preprocess/dedupe.py
`cluster_duplicates`)

The source builds a symmetric adjacency structure over the indices
`0 .. n_items-1` from the duplicate pairs, explores connected components
with an explicit-worklist depth-first search sharing one `visited` set
across components, and assigns every member of a component the
component's minimum index as its leader.  Indices are embedded as
`Fin n` (the source indexes `adj` with pair members directly, raising
`KeyError` on out-of-range pairs, so in-range pairs are the function's
domain).  Python iterates the adjacency *sets* in unspecified order and
pops its worklist from the other end than this embedding does; neither
affects the `visited` set, the component membership, or `min(component)`
— the theorems below characterise exactly those order-independent
values. -/

/-- The undirected duplicate-edge relation generated by the pair list
(`adj[i].add(j); adj[j].add(i)`). -/
def edgeRel (n : Nat) (pairs : List (Fin n × Fin n)) (a b : Fin n) : Prop :=
  (a, b) ∈ pairs ∨ (b, a) ∈ pairs

/-- Adjacency of `i`: all partners of `i` in the pair list (the source's
`adj[i]` set, as a list possibly holding repeats — harmless, duplicates
on the worklist are skipped as already visited). -/
def adjList (n : Nat) (pairs : List (Fin n × Fin n)) (i : Fin n) : List (Fin n) :=
  pairs.filterMap (fun p => if p.1 = i then some p.2 else none) ++
    pairs.filterMap (fun p => if p.2 = i then some p.1 else none)

/-- Adjacency membership is exactly the edge relation. -/
theorem mem_adjList (n : Nat) (pairs : List (Fin n × Fin n)) (i j : Fin n) :
    j ∈ adjList n pairs i ↔ edgeRel n pairs i j := by
  unfold adjList edgeRel
  rw [List.mem_append, List.mem_filterMap, List.mem_filterMap]
  constructor
  · rintro (⟨⟨a, b⟩, hp, hpj⟩ | ⟨⟨a, b⟩, hp, hpj⟩)
    · by_cases ha : a = i
      · rw [if_pos ha] at hpj
        obtain rfl := Option.some.inj hpj
        subst ha
        exact Or.inl hp
      · rw [if_neg ha] at hpj
        cases hpj
    · by_cases hb : b = i
      · rw [if_pos hb] at hpj
        obtain rfl := Option.some.inj hpj
        subst hb
        exact Or.inr hp
      · rw [if_neg hb] at hpj
        cases hpj
  · rintro (h | h)
    · exact Or.inl ⟨(i, j), h, by simp⟩
    · exact Or.inr ⟨(j, i), h, by simp⟩

/-- Embedding of the inner worklist search of `cluster_duplicates`
(dedupe.py:171-180): pop a node; skip it if visited, otherwise mark it
visited, append it to the component and push its adjacency.  (The
source pops from the tail of its list; popping from the head with the
pushed adjacency reversed visits the same nodes.)  Returns the final
visited set and the component list. -/
def dfs (n : Nat) (pairs : List (Fin n × Fin n)) :
    List (Fin n) → Finset (Fin n) → List (Fin n) → Finset (Fin n) × List (Fin n)
  | [], visited, comp => (visited, comp)
  | node :: stack, visited, comp =>
      if node ∈ visited then dfs n pairs stack visited comp
      else
        dfs n pairs ((adjList n pairs node).reverse ++ stack)
          (insert node visited) (comp ++ [node])
termination_by stack visited _ => ((Finset.univ \ visited).card, stack.length)
decreasing_by
  · apply Prod.Lex.right
    exact Nat.lt_succ_self _
  · apply Prod.Lex.left
    have hsd : Finset.univ \ insert node visited
        = (Finset.univ \ visited).erase node := by
      ext x
      simp only [Finset.mem_sdiff, Finset.mem_insert, Finset.mem_erase,
        Finset.mem_univ, true_and]
      tauto
    rw [hsd]
    exact Finset.card_erase_lt_of_mem
      (Finset.mem_sdiff.mpr ⟨Finset.mem_univ node, by assumption⟩)

/-- Reachability from `a` to `c` along duplicate edges through nodes
avoiding `V` (endpoints included); with `V = ∅` this is plain
reachability, the transitive closure of the duplicate relation. -/
inductive ReachAvoid (n : Nat) (pairs : List (Fin n × Fin n))
    (V : Finset (Fin n)) : Fin n → Fin n → Prop
  | refl (a : Fin n) (ha : a ∉ V) : ReachAvoid n pairs V a a
  | head (a b c : Fin n) (ha : a ∉ V) (hab : edgeRel n pairs a b)
      (hbc : ReachAvoid n pairs V b c) : ReachAvoid n pairs V a c

/-- The start of an avoiding path is outside the avoided set. -/
theorem ReachAvoid.start_not_mem {n : Nat} {pairs : List (Fin n × Fin n)}
    {V : Finset (Fin n)} {a c : Fin n}
    (h : ReachAvoid n pairs V a c) : a ∉ V := by
  cases h with
  | refl _ ha => exact ha
  | head _ _ _ ha _ _ => exact ha

/-- Avoiding a smaller set is easier. -/
theorem ReachAvoid.mono {n : Nat} {pairs : List (Fin n × Fin n)}
    {V W : Finset (Fin n)} (hVW : V ⊆ W) {a c : Fin n}
    (h : ReachAvoid n pairs W a c) : ReachAvoid n pairs V a c := by
  induction h with
  | refl a ha => exact .refl a (fun hmem => ha (hVW hmem))
  | head a b c ha hab _ ih => exact .head a b c (fun hmem => ha (hVW hmem)) hab ih

/-- The edge relation is symmetric. -/
theorem edgeRel_symm {n : Nat} {pairs : List (Fin n × Fin n)} {a b : Fin n}
    (h : edgeRel n pairs a b) : edgeRel n pairs b a :=
  Or.symm h

/-- Plain reachability is transitive. -/
theorem ReachAvoid.trans_empty {n : Nat} {pairs : List (Fin n × Fin n)}
    {a b c : Fin n} (hab : ReachAvoid n pairs ∅ a b)
    (hbc : ReachAvoid n pairs ∅ b c) : ReachAvoid n pairs ∅ a c := by
  induction hab with
  | refl _ _ => exact hbc
  | head a x b ha hax _ ih => exact .head a x c ha hax (ih hbc)

/-- Plain reachability is symmetric (the edges are undirected). -/
theorem ReachAvoid.symm_empty {n : Nat} {pairs : List (Fin n × Fin n)}
    {a c : Fin n} (h : ReachAvoid n pairs ∅ a c) : ReachAvoid n pairs ∅ c a := by
  induction h with
  | refl a ha => exact .refl a ha
  | head a b c ha hab _ ih =>
      refine ReachAvoid.trans_empty ih (.head b a a ?_ (edgeRel_symm hab)
        (.refl a ha))
      exact Finset.not_mem_empty b

/-- Splitting an avoiding path at a newly avoided node `x`: either the
target is `x` itself, or the path (restarted after its last visit to
`x`, if any) avoids `x` too — starting from the same start or from a
neighbour of `x`. -/
theorem ReachAvoid.insert_cases {n : Nat} {pairs : List (Fin n × Fin n)}
    {V : Finset (Fin n)} (x : Fin n) {s v : Fin n}
    (h : ReachAvoid n pairs V s v) :
    v = x ∨ ReachAvoid n pairs (insert x V) s v ∨
      ∃ t, edgeRel n pairs x t ∧ ReachAvoid n pairs (insert x V) t v := by
  induction h with
  | refl a ha =>
      by_cases hax : a = x
      · exact Or.inl hax
      · exact Or.inr (Or.inl (.refl a (by
          rw [Finset.mem_insert]
          rintro (h | h)
          · exact hax h
          · exact ha h)))
  | head a b c ha hab _ ih =>
      rcases ih with hcx | hbc | ⟨t, hxt, htc⟩
      · exact Or.inl hcx
      · by_cases hax : a = x
        · subst hax
          exact Or.inr (Or.inr ⟨b, hab, hbc⟩)
        · refine Or.inr (Or.inl (.head a b c ?_ hab hbc))
          rw [Finset.mem_insert]
          rintro (h | h)
          · exact hax h
          · exact ha h
      · exact Or.inr (Or.inr ⟨t, hxt, htc⟩)

/-- Over a reachability-closed visited set, paths from an unvisited
start automatically avoid the visited set. -/
theorem ReachAvoid.of_closed {n : Nat} {pairs : List (Fin n × Fin n)}
    {V : Finset (Fin n)}
    (hcl : ∀ a ∈ V, ∀ b, ReachAvoid n pairs ∅ a b → b ∈ V)
    {a v : Fin n} (h : ReachAvoid n pairs ∅ a v) (ha : a ∉ V) :
    ReachAvoid n pairs V a v := by
  induction h with
  | refl b _ => exact .refl b ha
  | head b c d _ hbc hcd ih =>
      have hc : c ∉ V := by
        intro hcV
        exact ha (hcl c hcV b (.head c b b (Finset.not_mem_empty c)
          (edgeRel_symm hbc) (.refl b (Finset.not_mem_empty b))))
      exact .head b c d ha hbc (ih hc)

/-- One step of the visited-set characterisation: marking `node` visited
and pushing its adjacency preserves "reachable avoiding the visited set
from some worklist entry". -/
theorem dfs_visited_step_iff {n : Nat} {pairs : List (Fin n × Fin n)}
    {visited : Finset (Fin n)} {node : Fin n} {stack : List (Fin n)}
    (hnode : node ∉ visited) (v : Fin n) :
    (v ∈ insert node visited ∨
      ∃ s ∈ (adjList n pairs node).reverse ++ stack,
        ReachAvoid n pairs (insert node visited) s v) ↔
    (v ∈ visited ∨ ∃ s ∈ node :: stack, ReachAvoid n pairs visited s v) := by
  constructor
  · rintro (hv | ⟨s, hs, hRA⟩)
    · rcases Finset.mem_insert.mp hv with rfl | hv
      · exact Or.inr ⟨v, List.mem_cons_self v stack, .refl v hnode⟩
      · exact Or.inl hv
    · have hRA' : ReachAvoid n pairs visited s v :=
        hRA.mono (Finset.subset_insert node visited)
      rcases List.mem_append.mp hs with hadj | hst
      · have hedge : edgeRel n pairs node s :=
          (mem_adjList n pairs node s).mp (List.mem_reverse.mp hadj)
        exact Or.inr ⟨node, List.mem_cons_self node stack,
          .head node s v hnode hedge hRA'⟩
      · exact Or.inr ⟨s, List.mem_cons_of_mem node hst, hRA'⟩
  · rintro (hv | ⟨s, hs, hRA⟩)
    · exact Or.inl (Finset.mem_insert_of_mem hv)
    · rcases ReachAvoid.insert_cases node hRA with rfl | hins | ⟨t, hxt, htv⟩
      · exact Or.inl (Finset.mem_insert_self v visited)
      · rcases List.mem_cons.mp hs with rfl | hst
        · exact absurd (Finset.mem_insert_self s visited) hins.start_not_mem
        · exact Or.inr ⟨s, List.mem_append_right _ hst, hins⟩
      · refine Or.inr ⟨t, List.mem_append_left _ ?_, htv⟩
        exact List.mem_reverse.mpr ((mem_adjList n pairs node t).mpr hxt)

/-- The two defining properties of the worklist search: the final
visited set is the old one plus everything reachable (avoiding it) from
the worklist, and the component accumulator gains exactly the unvisited
such nodes. -/
theorem dfs_spec (n : Nat) (pairs : List (Fin n × Fin n)) :
    ∀ (stack : List (Fin n)) (visited : Finset (Fin n)) (comp : List (Fin n)),
    (∀ v, v ∈ (dfs n pairs stack visited comp).1 ↔
        v ∈ visited ∨ ∃ s ∈ stack, ReachAvoid n pairs visited s v) ∧
    (∀ v, v ∈ (dfs n pairs stack visited comp).2 ↔
        v ∈ comp ∨ (v ∉ visited ∧ ∃ s ∈ stack, ReachAvoid n pairs visited s v)) := by
  intro stack visited comp
  induction stack, visited, comp using dfs.induct n pairs with
  | case1 visited comp =>
      rw [dfs]
      constructor
      · intro v
        simp
      · intro v
        simp
  | case2 node stack visited comp hmem ih =>
      rw [dfs, if_pos hmem]
      constructor
      · intro v
        rw [(ih.1 v)]
        constructor
        · rintro (hv | ⟨s, hs, hRA⟩)
          · exact Or.inl hv
          · exact Or.inr ⟨s, List.mem_cons_of_mem node hs, hRA⟩
        · rintro (hv | ⟨s, hs, hRA⟩)
          · exact Or.inl hv
          · rcases List.mem_cons.mp hs with rfl | hst
            · exact absurd hmem hRA.start_not_mem
            · exact Or.inr ⟨s, hst, hRA⟩
      · intro v
        rw [(ih.2 v)]
        constructor
        · rintro (hv | ⟨hnv, s, hs, hRA⟩)
          · exact Or.inl hv
          · exact Or.inr ⟨hnv, s, List.mem_cons_of_mem node hs, hRA⟩
        · rintro (hv | ⟨hnv, s, hs, hRA⟩)
          · exact Or.inl hv
          · rcases List.mem_cons.mp hs with rfl | hst
            · exact absurd hmem hRA.start_not_mem
            · exact Or.inr ⟨hnv, s, hst, hRA⟩
  | case3 node stack visited comp hmem ih =>
      rw [dfs, if_neg hmem]
      constructor
      · intro v
        rw [(ih.1 v)]
        exact dfs_visited_step_iff hmem v
      · intro v
        rw [(ih.2 v)]
        constructor
        · rintro (hv | ⟨hnv, hex⟩)
          · rcases List.mem_append.mp hv with hc | hn
            · exact Or.inl hc
            · obtain rfl := List.mem_singleton.mp hn
              exact Or.inr ⟨hmem, v, List.mem_cons_self v stack, .refl v hmem⟩
          · have hv' : v ∉ visited := fun hvv =>
              hnv (Finset.mem_insert_of_mem hvv)
            have := (@dfs_visited_step_iff n pairs visited node stack hmem v).mp
              (Or.inr hex)
            rcases this with hvv | hex'
            · exact absurd hvv hv'
            · exact Or.inr ⟨hv', hex'⟩
        · rintro (hv | ⟨hnv, s, hs, hRA⟩)
          · exact Or.inl (List.mem_append_left _ hv)
          · by_cases hvn : v = node
            · subst hvn
              exact Or.inl (List.mem_append_right _ (List.mem_singleton.mpr rfl))
            · have hnv' : v ∉ insert node visited := by
                rw [Finset.mem_insert]
                rintro (h | h)
                · exact hvn h
                · exact hnv h
              have := (@dfs_visited_step_iff n pairs visited node stack hmem v).mpr
                (Or.inr ⟨s, hs, hRA⟩)
              rcases this with hvv | hex'
              · exact absurd hvv hnv'
              · exact Or.inr ⟨hnv', hex'⟩

/-- The component accumulator stays duplicate-free and inside the final
visited set. -/
theorem dfs_nodup (n : Nat) (pairs : List (Fin n × Fin n)) :
    ∀ (stack : List (Fin n)) (visited : Finset (Fin n)) (comp : List (Fin n)),
    comp.Nodup → (∀ c ∈ comp, c ∈ visited) →
    ((dfs n pairs stack visited comp).2.Nodup ∧
      ∀ c ∈ (dfs n pairs stack visited comp).2,
        c ∈ (dfs n pairs stack visited comp).1) := by
  intro stack visited comp
  induction stack, visited, comp using dfs.induct n pairs with
  | case1 visited comp =>
      intro hnd hsub
      rw [dfs]
      exact ⟨hnd, hsub⟩
  | case2 node stack visited comp hmem ih =>
      intro hnd hsub
      rw [dfs, if_pos hmem]
      exact ih hnd hsub
  | case3 node stack visited comp hmem ih =>
      intro hnd hsub
      rw [dfs, if_neg hmem]
      refine ih ?_ ?_
      · rw [List.nodup_append]
        refine ⟨hnd, List.nodup_singleton node, ?_⟩
        intro c hc hcn
        obtain rfl := List.mem_singleton.mp hcn
        exact hmem (hsub c hc)
      · intro c hc
        rcases List.mem_append.mp hc with hcc | hcn
        · exact Finset.mem_insert_of_mem (hsub c hcc)
        · obtain rfl := List.mem_singleton.mp hcn
          exact Finset.mem_insert_self c visited

/-- Embedding of Python's `min(component)` on a non-empty list (the
default is never consulted: every component contains its start node). -/
def py_min_fin (n : Nat) (l : List (Fin n)) (dflt : Fin n) : Fin n :=
  match l with
  | [] => dflt
  | c :: cs => cs.foldl min c

/-- A running minimum over a linear order never exceeds its seed. -/
theorem foldl_min_le_init_lo {α : Type} [LinearOrder α] (l : List α) (a : α) :
    l.foldl min a ≤ a := by
  induction l generalizing a with
  | nil => exact le_refl a
  | cons b l ih => exact le_trans (ih (min a b)) (min_le_left a b)

/-- A running minimum over a linear order is at most each element. -/
theorem foldl_min_le_mem_lo {α : Type} [LinearOrder α] (l : List α) (a x : α) :
    x ∈ l → l.foldl min a ≤ x := by
  induction l generalizing a with
  | nil => intro hx; cases hx
  | cons b l ih =>
      intro hx
      rcases List.mem_cons.mp hx with rfl | hx
      · exact le_trans (foldl_min_le_init_lo l (min a x)) (min_le_right a x)
      · exact ih (min a b) hx

/-- A running minimum is the seed or one of the elements. -/
theorem foldl_min_mem_lo {α : Type} [LinearOrder α] (l : List α) (a : α) :
    l.foldl min a = a ∨ l.foldl min a ∈ l := by
  induction l generalizing a with
  | nil => exact Or.inl rfl
  | cons b l ih =>
      rcases ih (min a b) with h | h
      · rcases min_choice a b with hm | hm
        · exact Or.inl (by rw [List.foldl_cons, h, hm])
        · refine Or.inr ?_
          rw [List.foldl_cons, h, hm]
          exact List.mem_cons_self b l
      · exact Or.inr (List.mem_cons_of_mem b h)

/-- `min(component)` of a non-empty component is a member attaining the
minimum. -/
theorem py_min_fin_spec (n : Nat) (l : List (Fin n)) (dflt : Fin n)
    (hl : ¬ l = []) :
    py_min_fin n l dflt ∈ l ∧ ∀ b ∈ l, py_min_fin n l dflt ≤ b := by
  match l with
  | [] => exact absurd rfl hl
  | c :: cs =>
      constructor
      · rcases foldl_min_mem_lo cs c with h | h
        · rw [py_min_fin, h]
          exact List.mem_cons_self c cs
        · rw [py_min_fin]
          exact List.mem_cons_of_mem c h
      · intro b hb
        rcases List.mem_cons.mp hb with rfl | hb
        · rw [py_min_fin]
          exact foldl_min_le_init_lo cs b
        · rw [py_min_fin]
          exact foldl_min_le_mem_lo cs c b hb

/-- Embedding of the outer loop of `cluster_duplicates`
(dedupe.py:167-186): walk the start indices in order, skip visited ones,
search the component of each fresh start, take its minimum index as
leader and record `clusters[node] = leader` for every member.  The
accumulator list models the Python dict in insertion order (each key is
assigned exactly once — proved below). -/
def cluster_loop (n : Nat) (pairs : List (Fin n × Fin n)) :
    List (Fin n) → Finset (Fin n) → List (Fin n × Fin n) → List (Fin n × Fin n)
  | [], _, acc => acc
  | start :: rest, visited, acc =>
      if start ∈ visited then cluster_loop n pairs rest visited acc
      else
        let r := dfs n pairs [start] visited []
        let leader := py_min_fin n r.2 start
        cluster_loop n pairs rest r.1 (acc ++ r.2.map (fun node => (node, leader)))

/-- Embedding of `cluster_duplicates` (dedupe.py:144-187) over `n_items`
indices: the association list `index ↦ cluster leader`. -/
def cluster_duplicates (n : Nat) (pairs : List (Fin n × Fin n)) :
    List (Fin n × Fin n) :=
  cluster_loop n pairs (List.finRange n) ∅ []

/-- Invariant proof for the outer clustering loop.  The loop state is
characterised by: the visited set is closed under reachability, the
recorded keys are exactly the visited nodes (each exactly once), and
every recorded pair maps a node to the least node reachable from it.
The conclusions give duplicate-free keys covering every start index, and
the least-reachable property for every recorded pair. -/
theorem cluster_loop_spec (n : Nat) (pairs : List (Fin n × Fin n)) :
    ∀ (todo : List (Fin n)) (visited : Finset (Fin n))
      (acc : List (Fin n × Fin n)),
    (∀ a ∈ visited, ∀ b, ReachAvoid n pairs ∅ a b → b ∈ visited) →
    ((acc.map Prod.fst).Nodup) →
    (∀ v : Fin n, v ∈ acc.map Prod.fst ↔ v ∈ visited) →
    (∀ i l, (i, l) ∈ acc → ReachAvoid n pairs ∅ i l ∧
      ∀ j, ReachAvoid n pairs ∅ i j → l ≤ j) →
    (((cluster_loop n pairs todo visited acc).map Prod.fst).Nodup ∧
      (∀ p ∈ acc, p ∈ cluster_loop n pairs todo visited acc) ∧
      (∀ i ∈ todo, i ∈ (cluster_loop n pairs todo visited acc).map Prod.fst) ∧
      (∀ i l, (i, l) ∈ cluster_loop n pairs todo visited acc →
        ReachAvoid n pairs ∅ i l ∧ ∀ j, ReachAvoid n pairs ∅ i j → l ≤ j)) := by
  intro todo
  induction todo with
  | nil =>
      intro visited acc hcl hnd hiff hassign
      rw [cluster_loop]
      refine ⟨hnd, fun p hp => hp, ?_, hassign⟩
      intro i hi
      cases hi
  | cons start rest ih =>
      intro visited acc hcl hnd hiff hassign
      rw [cluster_loop]
      by_cases hs : start ∈ visited
      · rw [if_pos hs]
        have hres := ih visited acc hcl hnd hiff hassign
        refine ⟨hres.1, hres.2.1, ?_, hres.2.2.2⟩
        intro i hi
        rcases List.mem_cons.mp hi with rfl | hi
        · have hkey := (hiff i).mpr hs
          obtain ⟨p, hp, hpf⟩ := List.mem_map.mp hkey
          exact List.mem_map.mpr ⟨p, hres.2.1 p hp, hpf⟩
        · exact hres.2.2.1 i hi
      · rw [if_neg hs]
        dsimp only
        have hdfs := dfs_spec n pairs [start] visited []
        have hnd2 := dfs_nodup n pairs [start] visited [] List.nodup_nil
          (by intro c hc; cases hc)
        have hvis : ∀ v, v ∈ (dfs n pairs [start] visited []).1 ↔
            v ∈ visited ∨ ReachAvoid n pairs visited start v := by
          intro v
          rw [hdfs.1 v]
          simp only [List.mem_singleton, exists_eq_left]
        have hcomp : ∀ v, v ∈ (dfs n pairs [start] visited []).2 ↔
            (v ∉ visited ∧ ReachAvoid n pairs visited start v) := by
          intro v
          rw [hdfs.2 v]
          simp only [List.not_mem_nil, false_or, List.mem_singleton,
            exists_eq_left]
        have hRAiff : ∀ v, ReachAvoid n pairs visited start v ↔
            ReachAvoid n pairs ∅ start v := by
          intro v
          constructor
          · intro h
            exact h.mono (Finset.empty_subset visited)
          · intro h
            exact h.of_closed hcl hs
        have hstart_comp : start ∈ (dfs n pairs [start] visited []).2 :=
          (hcomp start).mpr ⟨hs, .refl start hs⟩
        have hlead := py_min_fin_spec n (dfs n pairs [start] visited []).2 start
          (by intro he; rw [he] at hstart_comp; cases hstart_comp)
        have hleadRA : ReachAvoid n pairs ∅ start
            (py_min_fin n (dfs n pairs [start] visited []).2 start) :=
          (hRAiff _).mp ((hcomp _).mp hlead.1).2
        have hnew : ∀ i l,
            (i, l) ∈ (dfs n pairs [start] visited []).2.map
              (fun node => (node, py_min_fin n (dfs n pairs [start] visited []).2 start)) →
            ReachAvoid n pairs ∅ i l ∧
              ∀ j, ReachAvoid n pairs ∅ i j → l ≤ j := by
          intro i l hmem
          obtain ⟨v, hv, heq⟩ := List.mem_map.mp hmem
          obtain ⟨rfl, rfl⟩ := Prod.mk.injEq .. |>.mp heq
          have hvRA : ReachAvoid n pairs ∅ start v :=
            (hRAiff v).mp ((hcomp v).mp hv).2
          constructor
          · exact ReachAvoid.trans_empty hvRA.symm_empty hleadRA
          · intro j hj
            have hsj : ReachAvoid n pairs ∅ start j :=
              ReachAvoid.trans_empty hvRA hj
            have hjnv : j ∉ visited := by
              intro hjv
              exact hs (hcl j hjv start hsj.symm_empty)
            have hjcomp : j ∈ (dfs n pairs [start] visited []).2 :=
              (hcomp j).mpr ⟨hjnv, (hRAiff j).mpr hsj⟩
            exact hlead.2 j hjcomp
        have hmapfst : (((dfs n pairs [start] visited []).2.map
            (fun node => (node, py_min_fin n (dfs n pairs [start] visited []).2 start))).map
              Prod.fst) = (dfs n pairs [start] visited []).2 := by
          rw [List.map_map]
          exact List.map_id _
        have hcl' : ∀ a ∈ (dfs n pairs [start] visited []).1,
            ∀ b, ReachAvoid n pairs ∅ a b →
              b ∈ (dfs n pairs [start] visited []).1 := by
          intro a ha b hab
          rcases (hvis a).mp ha with haV | haR
          · exact (hvis b).mpr (Or.inl (hcl a haV b hab))
          · have hsb : ReachAvoid n pairs ∅ start b :=
              ReachAvoid.trans_empty ((hRAiff a).mp haR) hab
            by_cases hbv : b ∈ visited
            · exact (hvis b).mpr (Or.inl hbv)
            · exact (hvis b).mpr (Or.inr ((hRAiff b).mpr hsb))
        have hiff' : ∀ v : Fin n,
            v ∈ ((acc ++ (dfs n pairs [start] visited []).2.map
              (fun node => (node, py_min_fin n (dfs n pairs [start] visited []).2 start))).map
                Prod.fst) ↔
            v ∈ (dfs n pairs [start] visited []).1 := by
          intro v
          rw [List.map_append, List.mem_append, hmapfst, hiff v, hvis v, hcomp v]
          by_cases hv : v ∈ visited <;> simp [hv]
        have hnd' : (((acc ++ (dfs n pairs [start] visited []).2.map
            (fun node => (node, py_min_fin n (dfs n pairs [start] visited []).2 start))).map
              Prod.fst)).Nodup := by
          rw [List.map_append, hmapfst, List.nodup_append]
          refine ⟨hnd, hnd2.1, ?_⟩
          intro v hva hvc
          exact ((hcomp v).mp hvc).1 ((hiff v).mp hva)
        have hassign' : ∀ i l,
            (i, l) ∈ acc ++ (dfs n pairs [start] visited []).2.map
              (fun node => (node, py_min_fin n (dfs n pairs [start] visited []).2 start)) →
            ReachAvoid n pairs ∅ i l ∧
              ∀ j, ReachAvoid n pairs ∅ i j → l ≤ j := by
          intro i l hm
          rcases List.mem_append.mp hm with h | h
          · exact hassign i l h
          · exact hnew i l h
        have hres := ih (dfs n pairs [start] visited []).1
          (acc ++ (dfs n pairs [start] visited []).2.map
            (fun node => (node, py_min_fin n (dfs n pairs [start] visited []).2 start)))
          hcl' hnd' hiff' hassign'
        refine ⟨hres.1, ?_, ?_, hres.2.2.2⟩
        · intro p hp
          exact hres.2.1 p (List.mem_append_left _ hp)
        · intro i hi
          rcases List.mem_cons.mp hi with rfl | hi
          · have hpair : (i, py_min_fin n (dfs n pairs [i] visited []).2 i)
                ∈ acc ++ (dfs n pairs [i] visited []).2.map
                  (fun node => (node, py_min_fin n (dfs n pairs [i] visited []).2 i)) :=
              List.mem_append_right _ (List.mem_map_of_mem _ hstart_comp)
            exact List.mem_map.mpr
              ⟨(i, py_min_fin n (dfs n pairs [i] visited []).2 i),
                hres.2.1 _ hpair, rfl⟩
          · exact hres.2.2.1 i hi

/-- C7: `cluster_duplicates` assigns every index exactly one cluster
(the recorded keys are duplicate-free and cover all of `0 .. n-1`), and
each index's assigned leader is reachable from it along duplicate edges
and is at most every node reachable from it — i.e. the leader is the
minimum of the index's connected component under the transitive closure
of the pair relation, not a pairwise-only flag. -/
theorem cluster_duplicates_spec (n : Nat) (pairs : List (Fin n × Fin n)) :
    ((cluster_duplicates n pairs).map Prod.fst).Nodup ∧
    (∀ i : Fin n, i ∈ (cluster_duplicates n pairs).map Prod.fst) ∧
    (∀ i l, (i, l) ∈ cluster_duplicates n pairs →
      ReachAvoid n pairs ∅ i l ∧ ∀ j, ReachAvoid n pairs ∅ i j → l ≤ j) := by
  have h := cluster_loop_spec n pairs (List.finRange n) ∅ []
    (by intro a ha; exact absurd ha (Finset.not_mem_empty a))
    List.nodup_nil
    (by intro v; simp)
    (by intro i l hm; cases hm)
  exact ⟨h.1, fun i => h.2.2.1 i (List.mem_finRange i), h.2.2.2⟩

end Orbit
